import Mathlib

/-!
Verification of the motion-blending job and the in-memory stream of the
ozz-animation runtime, against a shallow embedding over the real numbers.

The repository sources available are the unit test
`src/test/animation/runtime/motion_blending_job_tests.cc` and the stream
interface header `src/include/ozz/base/io/stream.h`.  The implementations
(`motion_blending_job.cc`, `stream.cc`) are modelled from the specification,
anchored on the expected outputs of the unit test where the test pins the
behaviour down.
-/

namespace Ozz

/-- 3-component vector (`ozz::math::Float3`), components idealized as reals. -/
@[ext]
structure Float3 where
  x : ℝ
  y : ℝ
  z : ℝ

instance : Zero Float3 := ⟨⟨0, 0, 0⟩⟩
instance : Add Float3 := ⟨fun a b => ⟨a.x + b.x, a.y + b.y, a.z + b.z⟩⟩
instance : Neg Float3 := ⟨fun a => ⟨-a.x, -a.y, -a.z⟩⟩
instance : SMul ℝ Float3 := ⟨fun k a => ⟨k * a.x, k * a.y, k * a.z⟩⟩

/-- Euclidean length of a `Float3` (`ozz::math::Length`). -/
noncomputable def Float3.Length (a : Float3) : ℝ :=
  Real.sqrt (a.x ^ 2 + a.y ^ 2 + a.z ^ 2)

/-- Sum of a list of `Float3`, componentwise. -/
def f3sum : List Float3 → Float3
  | [] => 0
  | a :: l => a + f3sum l

/-- Quaternion (`ozz::math::Quaternion`), components idealized as reals. -/
@[ext]
structure Quaternion where
  x : ℝ
  y : ℝ
  z : ℝ
  w : ℝ

instance : Zero Quaternion := ⟨⟨0, 0, 0, 0⟩⟩
instance : Add Quaternion := ⟨fun a b => ⟨a.x + b.x, a.y + b.y, a.z + b.z, a.w + b.w⟩⟩
instance : Neg Quaternion := ⟨fun a => ⟨-a.x, -a.y, -a.z, -a.w⟩⟩
instance : SMul ℝ Quaternion := ⟨fun k a => ⟨k * a.x, k * a.y, k * a.z, k * a.w⟩⟩

/-- Identity quaternion `(0,0,0,1)` (`ozz::math::Quaternion::identity`). -/
def Quaternion.identity : Quaternion := ⟨0, 0, 0, 1⟩

/-- Quaternion dot product (`ozz::math::Dot`). -/
def Quaternion.Dot (a b : Quaternion) : ℝ :=
  a.x * b.x + a.y * b.y + a.z * b.z + a.w * b.w

/-- Sum of a list of quaternions, componentwise. -/
def qsum : List Quaternion → Quaternion
  | [] => 0
  | a :: l => a + qsum l

/-- Normalization with a fallback: the spec requires that a degenerate
accumulator length falls back to the identity quaternion, otherwise the
quaternion is divided by its length. -/
noncomputable def Quaternion.NormalizeSafe (q : Quaternion) : Quaternion :=
  if Quaternion.Dot q q = 0 then Quaternion.identity
  else (1 / Real.sqrt (Quaternion.Dot q q)) • q

/-- Rigid pose component (`ozz::math::Transform`): translation, rotation,
scale. -/
@[ext]
structure Transform where
  translation : Float3
  rotation : Quaternion
  scale : Float3

/-- The canonical identity transform: zero translation, identity rotation,
unit scale (`ozz::math::Transform::identity`). -/
def Transform.identity : Transform := ⟨⟨0, 0, 0⟩, Quaternion.identity, ⟨1, 1, 1⟩⟩

/-- A weighted, non-owning reference to an input transform
(`MotionBlendingJob::Layer`).  The null pointer is `none`. -/
structure Layer where
  transform : Option Transform := none
  weight : ℝ := 0

/-- Dereference of a layer's transform; only used by the blend after
validation has guaranteed the reference is non-null. -/
def Layer.tf (l : Layer) : Transform := l.transform.getD Transform.identity

/-- The motion blending job (`ozz::animation::MotionBlendingJob`): an ordered
sequence of layers and a reference to the output transform.  A null output
pointer is `none`; `some t` is a non-null pointer whose pointee currently
holds `t`. -/
structure MotionBlendingJob where
  layers : List Layer := []
  output : Option Transform := none

/-- Modelled from the spec: `MotionBlendingJob::Validate` returns false iff
the output reference is null or some layer's transform reference is null; an
empty layer sequence is valid.  (`motion_blending_job.cc` is not under
`src/`; this follows spec section 4.1 and the Validate unit test.) -/
def MotionBlendingJob.Validate (job : MotionBlendingJob) : Bool :=
  job.output.isSome && job.layers.all fun l => l.transform.isSome

/-- The layers that contribute to the blend: those with strictly positive
weight (non-positive weights are skipped by every accumulation pass). -/
noncomputable def posLayers (layers : List Layer) : List Layer :=
  layers.filter fun l => decide (0 < l.weight)

/-- Accumulated sum of the strictly positive layer weights (`weight_sum`). -/
noncomputable def accWeight (layers : List Layer) : ℝ :=
  ((posLayers layers).map Layer.weight).sum

/-- Accumulated weighted translation lengths.  Modelled from the spec: the
translation channel blends length and direction separately; the unit test
expects output translation `(1.76, 0, 0.44)` for layers `(2,0,0)` and
`(0,0,3)` with weights `0.8` and `0.2`, which is the weighted mean length
`2.2` times the weighted mean direction `(0.8, 0, 0.2)`. -/
noncomputable def accLength (layers : List Layer) : ℝ :=
  ((posLayers layers).map fun l => l.weight * l.tf.translation.Length).sum

/-- Accumulated weighted translation directions (zero-length translations
contribute nothing, guarding the division by the length). -/
noncomputable def accDirection (layers : List Layer) : Float3 :=
  f3sum ((posLayers layers).map fun l =>
    if l.tf.translation.Length = 0 then 0
    else (l.weight / l.tf.translation.Length) • l.tf.translation)

/-- Rotation of the first positively-weighted layer: the reference against
which every contribution's hemisphere is tested (spec section 4.2 step 4). -/
noncomputable def firstPosRotation (layers : List Layer) : Quaternion :=
  match layers.find? fun l => decide (0 < l.weight) with
  | some l => l.tf.rotation
  | none => 0

/-- Accumulated weighted rotations, each negated when its dot product with
the reference rotation is negative (shortest-path correction). -/
noncomputable def accRotation (layers : List Layer) : Quaternion :=
  qsum ((posLayers layers).map fun l =>
    if Quaternion.Dot l.tf.rotation (firstPosRotation layers) < 0 then
      l.weight • (-l.tf.rotation)
    else l.weight • l.tf.rotation)

/-- Accumulated weighted scales (spec section 4.2 step 3). -/
noncomputable def accScale (layers : List Layer) : Float3 :=
  f3sum ((posLayers layers).map fun l => l.weight • l.tf.scale)

/-- Modelled from the spec: the blended transform computed by
`MotionBlendingJob::Run` once validation has passed
(`motion_blending_job.cc` is not under `src/`).  If `weight_sum` is zero the
output is exactly the identity transform.  Otherwise translation is the
weighted mean length times the weighted mean direction — the form required
by the expected outputs of the unit test in
`src/test/animation/runtime/motion_blending_job_tests.cc` — scale is the
weighted arithmetic mean of the layer scales, and rotation is the normalized
shortest-path-corrected weighted sum of the layer rotations. -/
noncomputable def BlendedTransform (layers : List Layer) : Transform :=
  if accWeight layers = 0 then Transform.identity
  else
    { translation :=
        (accLength layers / (accWeight layers * accWeight layers)) • accDirection layers
      rotation := (accRotation layers).NormalizeSafe
      scale := (1 / accWeight layers) • accScale layers }

/-- Modelled from the spec: `MotionBlendingJob::Run` revalidates, fails
(returning false and leaving the output untouched) when validation fails,
and otherwise writes the blended transform through the output reference and
returns true.  The returned pair is the boolean result together with the
content of the output pointee after the call. -/
noncomputable def MotionBlendingJob.Run (job : MotionBlendingJob) : Bool × Option Transform :=
  if job.Validate then (true, some (BlendedTransform job.layers))
  else (false, job.output)

/-- A layer with its weight multiplied by `k` (all other fields kept). -/
def Layer.scaleWeight (k : ℝ) (l : Layer) : Layer :=
  { l with weight := k * l.weight }

/-- The same job with every layer weight multiplied by `k`. -/
def MotionBlendingJob.scaleWeights (k : ℝ) (job : MotionBlendingJob) : MotionBlendingJob :=
  { job with layers := job.layers.map (Layer.scaleWeight k) }

/-- A layer whose rotation quaternion has been negated (a geometrically
equivalent rotation); a null transform stays null. -/
def Layer.negRot (l : Layer) : Layer :=
  { l with transform := l.transform.map fun t => { t with rotation := -t.rotation } }

/-- First transform of the `Run` unit test: translation `(2,0,0)`, rotation
`(.70710677, 0, 0, .70710677)`, unit scale. -/
noncomputable def testTransform0 : Transform :=
  ⟨⟨2, 0, 0⟩, ⟨0.70710677, 0, 0, 0.70710677⟩, ⟨1, 1, 1⟩⟩

/-- Second transform of the `Run` unit test: translation `(0,0,3)`, rotation
`(-0, -.70710677, -0, -.70710677)`, unit scale. -/
noncomputable def testTransform1 : Transform :=
  ⟨⟨0, 0, 3⟩, ⟨0, -0.70710677, 0, -0.70710677⟩, ⟨1, 1, 1⟩⟩

/-- The two-layer job of the `Run` unit test, with layer weights `w0`, `w1`. -/
noncomputable def testJob (w0 w1 : ℝ) : MotionBlendingJob :=
  { layers := [⟨some testTransform0, w0⟩, ⟨some testTransform1, w1⟩]
    output := some Transform.identity }

/-- A transform with zero translation, rotation `(1,0,0,0)` and unit scale,
used to probe the rotation channel. -/
def cexTransformA : Transform := ⟨⟨0, 0, 0⟩, ⟨1, 0, 0, 0⟩, ⟨1, 1, 1⟩⟩

/-- A transform with zero translation, rotation `(1,1,0,0)` and unit scale. -/
def cexTransformB : Transform := ⟨⟨0, 0, 0⟩, ⟨1, 1, 0, 0⟩, ⟨1, 1, 1⟩⟩

/-- A transform with zero translation, rotation `(-1,2,0,0)` and unit scale. -/
def cexTransformC : Transform := ⟨⟨0, 0, 0⟩, ⟨-1, 2, 0, 0⟩, ⟨1, 1, 1⟩⟩

/-- A transform with zero translation, rotation `(0,1,0,0)` — orthogonal to
`cexTransformA`'s rotation — and unit scale. -/
def cexTransformD : Transform := ⟨⟨0, 0, 0⟩, ⟨0, 1, 0, 0⟩, ⟨1, 1, 1⟩⟩

/-- Two equally weighted layers whose rotations are orthogonal (their dot
product is zero). -/
def jobC5 : MotionBlendingJob :=
  ⟨[⟨some cexTransformA, 1⟩, ⟨some cexTransformD, 1⟩], some Transform.identity⟩

/-- The same job with the second layer's rotation negated. -/
def jobC5n : MotionBlendingJob :=
  ⟨[⟨some cexTransformA, 1⟩, (⟨some cexTransformD, 1⟩ : Layer).negRot],
    some Transform.identity⟩

/-- Three equally weighted layers in the order A, B, C. -/
def jobPerm1 : MotionBlendingJob :=
  ⟨[⟨some cexTransformA, 1⟩, ⟨some cexTransformB, 1⟩, ⟨some cexTransformC, 1⟩],
    some Transform.identity⟩

/-- The same three layers with the first two swapped: B, A, C. -/
def jobPerm2 : MotionBlendingJob :=
  ⟨[⟨some cexTransformB, 1⟩, ⟨some cexTransformA, 1⟩, ⟨some cexTransformC, 1⟩],
    some Transform.identity⟩

/-- Modelled from the spec: the in-memory stream state
(`ozz::io::SpanStream`, whose implementation `stream.cc` is not under
`src/`): a fixed backing buffer, the effective data size `end_` and the
cursor `tell_`, following the field list and the `Read`/`Write` doc comments
of `src/include/ozz/base/io/stream.h`. -/
structure SpanStream where
  buffer : List ℕ
  end_ : ℕ
  tell_ : ℕ

/-- Modelled from the spec: `SpanStream::Read` transfers
`min(_size, end_ - tell_)` bytes (never past the effective data end) and
advances the position indicator by the number of bytes actually read, which
it returns. -/
def SpanStream.Read (s : SpanStream) (size : ℕ) : ℕ × SpanStream :=
  let n := min size (s.end_ - s.tell_)
  (n, { s with tell_ := s.tell_ + n })

/-- Modelled from the spec: `SpanStream::Write` transfers
`min(data.length, buffer.length - tell_)` bytes into the backing buffer
(the span cannot grow), extends the effective data size, and advances the
position indicator by the number of bytes actually written, which it
returns. -/
def SpanStream.Write (s : SpanStream) (data : List ℕ) : ℕ × SpanStream :=
  let n := min data.length (s.buffer.length - s.tell_)
  (n, { buffer := s.buffer.take s.tell_ ++ data.take n ++ s.buffer.drop (s.tell_ + n)
        end_ := max s.end_ (s.tell_ + n)
        tell_ := s.tell_ + n })

/-! ## Componentwise algebra for `Float3` and `Quaternion` -/

@[simp] theorem Float3.add_x (a b : Float3) : (a + b).x = a.x + b.x := rfl

@[simp] theorem Float3.add_y (a b : Float3) : (a + b).y = a.y + b.y := rfl

@[simp] theorem Float3.add_z (a b : Float3) : (a + b).z = a.z + b.z := rfl

@[simp] theorem Float3.smul_x (k : ℝ) (a : Float3) : (k • a).x = k * a.x := rfl

@[simp] theorem Float3.smul_y (k : ℝ) (a : Float3) : (k • a).y = k * a.y := rfl

@[simp] theorem Float3.smul_z (k : ℝ) (a : Float3) : (k • a).z = k * a.z := rfl

@[simp] theorem Float3.neg_x (a : Float3) : (-a).x = -a.x := rfl

@[simp] theorem Float3.neg_y (a : Float3) : (-a).y = -a.y := rfl

@[simp] theorem Float3.neg_z (a : Float3) : (-a).z = -a.z := rfl

@[simp] theorem Float3.zero_x : (0 : Float3).x = 0 := rfl

@[simp] theorem Float3.zero_y : (0 : Float3).y = 0 := rfl

@[simp] theorem Float3.zero_z : (0 : Float3).z = 0 := rfl

@[simp] theorem Quaternion.qadd_x (a b : Quaternion) : (a + b).x = a.x + b.x := rfl

@[simp] theorem Quaternion.qadd_y (a b : Quaternion) : (a + b).y = a.y + b.y := rfl

@[simp] theorem Quaternion.qadd_z (a b : Quaternion) : (a + b).z = a.z + b.z := rfl

@[simp] theorem Quaternion.qadd_w (a b : Quaternion) : (a + b).w = a.w + b.w := rfl

@[simp] theorem Quaternion.qsmul_x (k : ℝ) (a : Quaternion) : (k • a).x = k * a.x := rfl

@[simp] theorem Quaternion.qsmul_y (k : ℝ) (a : Quaternion) : (k • a).y = k * a.y := rfl

@[simp] theorem Quaternion.qsmul_z (k : ℝ) (a : Quaternion) : (k • a).z = k * a.z := rfl

@[simp] theorem Quaternion.qsmul_w (k : ℝ) (a : Quaternion) : (k • a).w = k * a.w := rfl

@[simp] theorem Quaternion.qneg_x (a : Quaternion) : (-a).x = -a.x := rfl

@[simp] theorem Quaternion.qneg_y (a : Quaternion) : (-a).y = -a.y := rfl

@[simp] theorem Quaternion.qneg_z (a : Quaternion) : (-a).z = -a.z := rfl

@[simp] theorem Quaternion.qneg_w (a : Quaternion) : (-a).w = -a.w := rfl

@[simp] theorem Quaternion.qzero_x : (0 : Quaternion).x = 0 := rfl

@[simp] theorem Quaternion.qzero_y : (0 : Quaternion).y = 0 := rfl

@[simp] theorem Quaternion.qzero_z : (0 : Quaternion).z = 0 := rfl

@[simp] theorem Quaternion.qzero_w : (0 : Quaternion).w = 0 := rfl

theorem Quaternion.Dot_comm (a b : Quaternion) : Quaternion.Dot a b = Quaternion.Dot b a := by
  simp only [Quaternion.Dot]; ring

theorem Quaternion.Dot_neg_left (a b : Quaternion) :
    Quaternion.Dot (-a) b = -Quaternion.Dot a b := by
  simp only [Quaternion.Dot, Quaternion.qneg_x, Quaternion.qneg_y, Quaternion.qneg_z,
    Quaternion.qneg_w]
  ring

theorem Quaternion.Dot_neg_right (a b : Quaternion) :
    Quaternion.Dot a (-b) = -Quaternion.Dot a b := by
  simp only [Quaternion.Dot, Quaternion.qneg_x, Quaternion.qneg_y, Quaternion.qneg_z,
    Quaternion.qneg_w]
  ring

theorem Quaternion.Dot_smul (k : ℝ) (a b : Quaternion) :
    Quaternion.Dot (k • a) (k • b) = k ^ 2 * Quaternion.Dot a b := by
  simp only [Quaternion.Dot, Quaternion.qsmul_x, Quaternion.qsmul_y, Quaternion.qsmul_z,
    Quaternion.qsmul_w]
  ring

theorem Quaternion.Dot_self_nonneg (a : Quaternion) : 0 ≤ Quaternion.Dot a a := by
  simp only [Quaternion.Dot]
  nlinarith [sq_nonneg a.x, sq_nonneg a.y, sq_nonneg a.z, sq_nonneg a.w]

theorem Quaternion.Dot_self_eq_zero (a : Quaternion) :
    Quaternion.Dot a a = 0 ↔ a = 0 := by
  constructor
  · intro h
    simp only [Quaternion.Dot] at h
    have hx : a.x = 0 := by nlinarith [sq_nonneg a.x, sq_nonneg a.y, sq_nonneg a.z, sq_nonneg a.w]
    have hy : a.y = 0 := by nlinarith [sq_nonneg a.x, sq_nonneg a.y, sq_nonneg a.z, sq_nonneg a.w]
    have hz : a.z = 0 := by nlinarith [sq_nonneg a.x, sq_nonneg a.y, sq_nonneg a.z, sq_nonneg a.w]
    have hw : a.w = 0 := by nlinarith [sq_nonneg a.x, sq_nonneg a.y, sq_nonneg a.z, sq_nonneg a.w]
    ext <;> simp [hx, hy, hz, hw]
  · intro h
    subst h
    simp [Quaternion.Dot]

/-! ## Sums of vectors and quaternions -/

@[simp] theorem f3sum_nil : f3sum [] = 0 := rfl

@[simp] theorem f3sum_cons (a : Float3) (l : List Float3) : f3sum (a :: l) = a + f3sum l := rfl

@[simp] theorem qsum_nil : qsum [] = 0 := rfl

@[simp] theorem qsum_cons (a : Quaternion) (l : List Quaternion) : qsum (a :: l) = a + qsum l :=
  rfl

theorem f3sum_perm {l₁ l₂ : List Float3} (h : l₁.Perm l₂) : f3sum l₁ = f3sum l₂ := by
  induction h with
  | nil => rfl
  | cons x _ ih => simp [ih]
  | swap x y l => ext <;> simp <;> ring
  | trans _ _ ih₁ ih₂ => rw [ih₁, ih₂]

theorem qsum_perm {l₁ l₂ : List Quaternion} (h : l₁.Perm l₂) : qsum l₁ = qsum l₂ := by
  induction h with
  | nil => rfl
  | cons x _ ih => simp [ih]
  | swap x y l => ext <;> simp <;> ring
  | trans _ _ ih₁ ih₂ => rw [ih₁, ih₂]

theorem f3sum_map_smul {α : Type} (k : ℝ) (f : α → Float3) (l : List α) :
    f3sum (l.map fun a => k • f a) = k • f3sum (l.map f) := by
  induction l with
  | nil => ext <;> simp
  | cons a l ih => simp only [List.map_cons, f3sum_cons, ih]; ext <;> simp <;> ring

theorem qsum_map_smul {α : Type} (k : ℝ) (f : α → Quaternion) (l : List α) :
    qsum (l.map fun a => k • f a) = k • qsum (l.map f) := by
  induction l with
  | nil => ext <;> simp
  | cons a l ih => simp only [List.map_cons, qsum_cons, ih]; ext <;> simp <;> ring

theorem qsum_map_neg {α : Type} (f : α → Quaternion) (l : List α) :
    qsum (l.map fun a => -f a) = -qsum (l.map f) := by
  induction l with
  | nil => ext <;> simp
  | cons a l ih => simp only [List.map_cons, qsum_cons, ih]; ext <;> simp <;> ring

/-! ## The positively-weighted layers and the weight sum -/

theorem posLayers_nil : posLayers [] = [] := rfl

theorem posLayers_cons (l : Layer) (ls : List Layer) :
    posLayers (l :: ls) = if 0 < l.weight then l :: posLayers ls else posLayers ls := by
  simp only [posLayers, List.filter_cons]
  by_cases h : 0 < l.weight <;> simp [h]

theorem posLayers_append (a b : List Layer) :
    posLayers (a ++ b) = posLayers a ++ posLayers b := by
  simp [posLayers, List.filter_append]

theorem mem_posLayers {l : Layer} {ls : List Layer} :
    l ∈ posLayers ls ↔ l ∈ ls ∧ 0 < l.weight := by
  simp [posLayers, List.mem_filter]

theorem accWeight_nonneg (ls : List Layer) : 0 ≤ accWeight ls := by
  apply List.sum_nonneg
  intro x hx
  simp only [List.mem_map] at hx
  obtain ⟨l, hl, rfl⟩ := hx
  exact le_of_lt (mem_posLayers.mp hl).2

theorem accWeight_pos {ls : List Layer} (h : posLayers ls ≠ []) : 0 < accWeight ls := by
  apply List.sum_pos
  · intro x hx
    simp only [List.mem_map] at hx
    obtain ⟨l, hl, rfl⟩ := hx
    exact (mem_posLayers.mp hl).2
  · simpa using h

theorem accWeight_eq_zero_iff (ls : List Layer) : accWeight ls = 0 ↔ posLayers ls = [] := by
  constructor
  · intro h
    by_contra hne
    exact absurd h (ne_of_gt (accWeight_pos hne))
  · intro h
    simp [accWeight, h]

theorem rsum_map_mul {α : Type} (k : ℝ) (f : α → ℝ) (l : List α) :
    (l.map fun a => k * f a).sum = k * (l.map f).sum := by
  induction l with
  | nil => simp
  | cons a l ih => simp [ih, mul_add]

/-! ## Normalization -/

theorem NormalizeSafe_unit (q : Quaternion) :
    Quaternion.Dot q.NormalizeSafe q.NormalizeSafe = 1 := by
  unfold Quaternion.NormalizeSafe
  by_cases h : Quaternion.Dot q q = 0
  · simp only [h, if_pos]
    norm_num [Quaternion.Dot, Quaternion.identity]
  · simp only [h, if_neg, not_false_iff]
    rw [Quaternion.Dot_smul]
    have hnn := Quaternion.Dot_self_nonneg q
    have hpos : 0 < Quaternion.Dot q q := lt_of_le_of_ne hnn (Ne.symm h)
    have hs : Real.sqrt (Quaternion.Dot q q) ^ 2 = Quaternion.Dot q q := Real.sq_sqrt hnn
    have hsne : Real.sqrt (Quaternion.Dot q q) ≠ 0 := by
      positivity
    field_simp

theorem NormalizeSafe_neg {q : Quaternion} (h : Quaternion.Dot q q ≠ 0) :
    (-q).NormalizeSafe = -q.NormalizeSafe := by
  unfold Quaternion.NormalizeSafe
  have hd : Quaternion.Dot (-q) (-q) = Quaternion.Dot q q := by
    rw [Quaternion.Dot_neg_left, Quaternion.Dot_neg_right, neg_neg]
  rw [hd]
  simp only [h, if_neg, not_false_iff]
  ext <;> simp <;> ring

theorem NormalizeSafe_smul {k : ℝ} (hk : 0 < k) (q : Quaternion) :
    (k • q).NormalizeSafe = q.NormalizeSafe := by
  unfold Quaternion.NormalizeSafe
  rw [Quaternion.Dot_smul]
  by_cases h : Quaternion.Dot q q = 0
  · rw [h]
    norm_num
  · have hkq : k ^ 2 * Quaternion.Dot q q ≠ 0 := by
      exact mul_ne_zero (pow_ne_zero 2 (ne_of_gt hk)) h
    simp only [hkq, h, if_neg, not_false_iff]
    have hnn := Quaternion.Dot_self_nonneg q
    have hsq : Real.sqrt (k ^ 2 * Quaternion.Dot q q) =
        k * Real.sqrt (Quaternion.Dot q q) := by
      rw [Real.sqrt_mul (sq_nonneg k), Real.sqrt_sq hk.le]
    rw [hsq]
    have hpos : 0 < Quaternion.Dot q q := lt_of_le_of_ne hnn (Ne.symm h)
    have hsne : Real.sqrt (Quaternion.Dot q q) ≠ 0 := by positivity
    ext <;> field_simp <;> ring

theorem Dot_identity : Quaternion.Dot Quaternion.identity Quaternion.identity = 1 := by
  norm_num [Quaternion.Dot, Quaternion.identity]

theorem blended_rotation_unit (ls : List Layer) :
    Quaternion.Dot (BlendedTransform ls).rotation (BlendedTransform ls).rotation = 1 := by
  unfold BlendedTransform
  by_cases h : accWeight ls = 0
  · simp only [h, if_pos]
    exact Dot_identity
  · simp only [h, if_neg, not_false_iff]
    exact NormalizeSafe_unit _

/-! ## Claim theorems: validation, error handling, idempotence -/

/-- C3: for every job, `Validate()` returns false iff the output reference
is null or some layer in the layer sequence has a null transform reference;
in particular a job with zero layers and a non-null output validates.
(`Validate` is a pure function of the job fields; the model returns only the
boolean, so it cannot touch the output.) -/
theorem validate_false_iff :
    (∀ job : MotionBlendingJob, job.Validate = false ↔
        job.output = none ∨ ∃ l ∈ job.layers, l.transform = none)
    ∧ ∀ t : Transform, MotionBlendingJob.Validate ⟨[], some t⟩ = true := by
  constructor
  · intro job
    constructor
    · intro h
      by_contra hc
      push_neg at hc
      obtain ⟨ho, hl⟩ := hc
      have : job.Validate = true := by
        simp only [MotionBlendingJob.Validate, Bool.and_eq_true, List.all_eq_true]
        constructor
        · simp [Option.isSome_iff_ne_none, ho]
        · intro l hl'
          simp [Option.isSome_iff_ne_none, hl l hl']
      rw [this] at h
      simp at h
    · intro h
      rcases h with h | ⟨l, hl, ht⟩
      · simp [MotionBlendingJob.Validate, h]
      · simp only [MotionBlendingJob.Validate, Bool.and_eq_false_iff]
        right
        rw [List.all_eq_false]
        exact ⟨l, hl, by simp [ht]⟩
  · intro t
    simp [MotionBlendingJob.Validate]

/-- C4: for every job on which validation fails, `Run()` returns false and
the output transform is left completely unchanged. -/
theorem run_invalid_untouched (job : MotionBlendingJob) (h : job.Validate = false) :
    job.Run = (false, job.output) := by
  simp [MotionBlendingJob.Run, h]

/-- Witness for C4: a job with a null output fails and leaves the (null)
output exactly as it was. -/
theorem run_invalid_untouched_witness :
    MotionBlendingJob.Run ⟨[], none⟩ = (false, none) :=
  run_invalid_untouched ⟨[], none⟩ rfl

/-- C7: `Run()` is deterministic and idempotent: a second call with
unchanged inputs (the output pointee now holding the first call's result)
returns the same boolean and writes the same output, bit for bit; the job
carries no hidden state between calls. -/
theorem run_idempotent (job : MotionBlendingJob) :
    MotionBlendingJob.Run { job with output := job.Run.2 } = job.Run := by
  obtain ⟨ls, o⟩ := job
  by_cases h : MotionBlendingJob.Validate ⟨ls, o⟩ = true
  · have hrun : MotionBlendingJob.Run ⟨ls, o⟩ = (true, some (BlendedTransform ls)) := by
      simp [MotionBlendingJob.Run, h]
    rw [hrun]
    have h2 : MotionBlendingJob.Validate ⟨ls, some (BlendedTransform ls)⟩ = true := by
      simp only [MotionBlendingJob.Validate, Bool.and_eq_true] at h ⊢
      exact ⟨rfl, h.2⟩
    simp [MotionBlendingJob.Run, h2]
  · have hf : MotionBlendingJob.Validate ⟨ls, o⟩ = false := Bool.not_eq_true _ |>.mp h
    have hr : MotionBlendingJob.Run ⟨ls, o⟩ = (false, o) := by
      simp [MotionBlendingJob.Run, hf]
    rw [hr]
    exact hr

/-- C8: the rotation a successful `Run()` writes to the output is a
unit-length quaternion: the accumulator is normalized before being written,
and a degenerate accumulator falls back to the (unit) identity quaternion. -/
theorem run_rotation_unit (job : MotionBlendingJob) (t : Transform)
    (h : job.Run = (true, some t)) :
    Quaternion.Dot t.rotation t.rotation = 1 := by
  by_cases hv : job.Validate = true
  · have : some (BlendedTransform job.layers) = some t := by
      have := h
      simp only [MotionBlendingJob.Run, hv, if_pos] at this
      exact (Prod.mk.injEq _ _ _ _).mp this |>.2
    have ht : t = BlendedTransform job.layers := (Option.some.injEq _ _).mp this |>.symm
    rw [ht]
    exact blended_rotation_unit _
  · have hf : job.Validate = false := Bool.not_eq_true _ |>.mp hv
    simp [MotionBlendingJob.Run, hf] at h

/-- Witness for C8: the empty job outputs the identity rotation, which has
unit length. -/
theorem run_rotation_unit_witness :
    Quaternion.Dot Transform.identity.rotation Transform.identity.rotation = 1 :=
  run_rotation_unit ⟨[], some Transform.identity⟩ Transform.identity
    (by simp [MotionBlendingJob.Run, MotionBlendingJob.Validate, BlendedTransform,
      accWeight, posLayers])

/-- C2 (counterexample): a job with a non-null output whose single layer has
non-positive weight but a null transform fails validation, so `Run` returns
false rather than writing the identity transform. -/
theorem run_nonpositive_cex :
    (⟨[⟨none, 0⟩], some Transform.identity⟩ : MotionBlendingJob).output.isSome = true
    ∧ (⟨[⟨none, 0⟩], some Transform.identity⟩ : MotionBlendingJob).layers.map Layer.weight = [0]
    ∧ (⟨[⟨none, 0⟩], some Transform.identity⟩ : MotionBlendingJob).Run.1 = false := by
  refine ⟨rfl, rfl, ?_⟩
  simp [MotionBlendingJob.Run, MotionBlendingJob.Validate]

/-- C2 (amended): for every job that passes validation (non-null output and
all layer transforms non-null) all of whose layer weights are non-positive —
including the zero-layer case — `Run()` returns true and sets the output
exactly to the canonical identity transform. -/
theorem run_nonpositive_weights_identity (job : MotionBlendingJob)
    (hv : job.Validate = true) (hw : ∀ l ∈ job.layers, l.weight ≤ 0) :
    job.Run = (true, some Transform.identity) := by
  have hpos : posLayers job.layers = [] := by
    unfold posLayers
    rw [List.filter_eq_nil_iff]
    intro l hl
    simp only [decide_eq_true_eq, not_lt]
    exact hw l hl
  have hws : accWeight job.layers = 0 := (accWeight_eq_zero_iff _).mpr hpos
  simp [MotionBlendingJob.Run, hv, BlendedTransform, hws]

/-- Witness for C2's amended theorem: a valid job with one zero-weight layer
outputs exactly the identity transform. -/
theorem run_nonpositive_weights_identity_witness :
    MotionBlendingJob.Run ⟨[⟨some testTransform0, 0⟩], some Transform.identity⟩ =
      (true, some Transform.identity) :=
  run_nonpositive_weights_identity ⟨[⟨some testTransform0, 0⟩], some Transform.identity⟩
    (by simp [MotionBlendingJob.Validate])
    (by intro l hl; simp only [List.mem_singleton] at hl; subst hl; norm_num)

/-! ## Invariance of the blend under uniform weight scaling -/

theorem sqrt_eval {a b : ℝ} (hb : 0 ≤ b) (h : b * b = a) : Real.sqrt a = b := by
  rw [← h]
  exact Real.sqrt_mul_self hb

theorem scaleWeight_weight (k : ℝ) (l : Layer) : (Layer.scaleWeight k l).weight = k * l.weight :=
  rfl

theorem scaleWeight_tf (k : ℝ) (l : Layer) : (Layer.scaleWeight k l).tf = l.tf := rfl

theorem posLayers_scale {k : ℝ} (hk : 0 < k) (ls : List Layer) :
    posLayers (ls.map (Layer.scaleWeight k)) = (posLayers ls).map (Layer.scaleWeight k) := by
  induction ls with
  | nil => rfl
  | cons l ls ih =>
    rw [List.map_cons, posLayers_cons, posLayers_cons]
    have hiff : 0 < (Layer.scaleWeight k l).weight ↔ 0 < l.weight := by
      rw [scaleWeight_weight]
      exact mul_pos_iff_of_pos_left hk
    by_cases h : 0 < l.weight
    · rw [if_pos (hiff.mpr h), if_pos h, List.map_cons, ih]
    · rw [if_neg fun hc => h (hiff.mp hc), if_neg h, ih]

theorem firstPosRotation_scale {k : ℝ} (hk : 0 < k) (ls : List Layer) :
    firstPosRotation (ls.map (Layer.scaleWeight k)) = firstPosRotation ls := by
  unfold firstPosRotation
  rw [List.find?_map]
  have hp : ((fun l : Layer => decide (0 < l.weight)) ∘ Layer.scaleWeight k)
      = fun l : Layer => decide (0 < l.weight) := by
    funext l
    simp only [Function.comp_apply, scaleWeight_weight]
    exact decide_eq_decide.mpr (mul_pos_iff_of_pos_left hk)
  rw [hp]
  cases h : ls.find? fun l : Layer => decide (0 < l.weight) with
  | none => rfl
  | some l => rfl

theorem accWeight_scale {k : ℝ} (hk : 0 < k) (ls : List Layer) :
    accWeight (ls.map (Layer.scaleWeight k)) = k * accWeight ls := by
  unfold accWeight
  rw [posLayers_scale hk, List.map_map]
  have hcomp : (Layer.weight ∘ Layer.scaleWeight k) = fun l : Layer => k * l.weight :=
    funext fun l => rfl
  rw [hcomp, rsum_map_mul]

theorem accLength_scale {k : ℝ} (hk : 0 < k) (ls : List Layer) :
    accLength (ls.map (Layer.scaleWeight k)) = k * accLength ls := by
  unfold accLength
  rw [posLayers_scale hk, List.map_map]
  have hcomp : ((fun l : Layer => l.weight * l.tf.translation.Length) ∘ Layer.scaleWeight k)
      = fun l : Layer => k * (l.weight * l.tf.translation.Length) := by
    funext l
    simp only [Function.comp_apply, scaleWeight_weight, scaleWeight_tf]
    ring
  rw [hcomp, rsum_map_mul]

theorem accDirection_scale {k : ℝ} (hk : 0 < k) (ls : List Layer) :
    accDirection (ls.map (Layer.scaleWeight k)) = k • accDirection ls := by
  unfold accDirection
  rw [posLayers_scale hk, List.map_map]
  have hcomp : ((fun l : Layer =>
        if l.tf.translation.Length = 0 then (0 : Float3)
        else (l.weight / l.tf.translation.Length) • l.tf.translation) ∘ Layer.scaleWeight k)
      = fun l : Layer => k •
        (if l.tf.translation.Length = 0 then (0 : Float3)
         else (l.weight / l.tf.translation.Length) • l.tf.translation) := by
    funext l
    simp only [Function.comp_apply, scaleWeight_tf, scaleWeight_weight]
    by_cases h : l.tf.translation.Length = 0
    · rw [if_pos h, if_pos h]
      ext <;> simp
    · rw [if_neg h, if_neg h]
      ext <;> simp <;> ring
  rw [hcomp, f3sum_map_smul]

theorem accScale_scale {k : ℝ} (hk : 0 < k) (ls : List Layer) :
    accScale (ls.map (Layer.scaleWeight k)) = k • accScale ls := by
  unfold accScale
  rw [posLayers_scale hk, List.map_map]
  have hcomp : ((fun l : Layer => l.weight • l.tf.scale) ∘ Layer.scaleWeight k)
      = fun l : Layer => k • (l.weight • l.tf.scale) := by
    funext l
    simp only [Function.comp_apply, scaleWeight_tf, scaleWeight_weight]
    ext <;> simp <;> ring
  rw [hcomp, f3sum_map_smul]

theorem accRotation_scale {k : ℝ} (hk : 0 < k) (ls : List Layer) :
    accRotation (ls.map (Layer.scaleWeight k)) = k • accRotation ls := by
  unfold accRotation
  rw [posLayers_scale hk, List.map_map, firstPosRotation_scale hk]
  have hcomp : ((fun l : Layer =>
        if Quaternion.Dot l.tf.rotation (firstPosRotation ls) < 0 then
          l.weight • (-l.tf.rotation)
        else l.weight • l.tf.rotation) ∘ Layer.scaleWeight k)
      = fun l : Layer => k •
        (if Quaternion.Dot l.tf.rotation (firstPosRotation ls) < 0 then
          l.weight • (-l.tf.rotation)
         else l.weight • l.tf.rotation) := by
    funext l
    simp only [Function.comp_apply, scaleWeight_tf, scaleWeight_weight]
    by_cases h : Quaternion.Dot l.tf.rotation (firstPosRotation ls) < 0
    · rw [if_pos h, if_pos h]
      ext <;> simp <;> ring
    · rw [if_neg h, if_neg h]
      ext <;> simp <;> ring
  rw [hcomp, qsum_map_smul]

theorem validate_scale (k : ℝ) (job : MotionBlendingJob) :
    (job.scaleWeights k).Validate = job.Validate := by
  simp only [MotionBlendingJob.scaleWeights, MotionBlendingJob.Validate, List.all_map]
  have hp : ((fun l : Layer => l.transform.isSome) ∘ Layer.scaleWeight k)
      = fun l : Layer => l.transform.isSome := funext fun l => rfl
  rw [hp]

theorem blended_scale {k : ℝ} (hk : 0 < k) (ls : List Layer) :
    BlendedTransform (ls.map (Layer.scaleWeight k)) = BlendedTransform ls := by
  unfold BlendedTransform
  rw [accWeight_scale hk, accLength_scale hk, accDirection_scale hk, accRotation_scale hk,
    accScale_scale hk]
  by_cases h : accWeight ls = 0
  · rw [h, mul_zero]
    simp
  · have h' : k * accWeight ls ≠ 0 := mul_ne_zero (ne_of_gt hk) h
    rw [if_neg h', if_neg h]
    have hk' : k ≠ 0 := ne_of_gt hk
    refine Transform.ext ?_ ?_ ?_
    · ext <;> field_simp <;> ring
    · exact NormalizeSafe_smul hk _
    · ext <;> field_simp <;> ring

theorem run_scaleWeights {k : ℝ} (hk : 0 < k) (job : MotionBlendingJob) :
    (job.scaleWeights k).Run = job.Run := by
  unfold MotionBlendingJob.Run
  rw [validate_scale]
  by_cases h : job.Validate = true
  · simp only [h, if_true]
    have hl : (job.scaleWeights k).layers = job.layers.map (Layer.scaleWeight k) := rfl
    rw [hl, blended_scale hk]
  · have hf : job.Validate = false := Bool.not_eq_true _ |>.mp h
    simp only [hf, Bool.false_eq_true, if_false]
    rfl

/-! ## Evaluation of the unit test's two-layer job -/

theorem sqrt4 : Real.sqrt 4 = 2 := sqrt_eval (by norm_num) (by norm_num)

theorem sqrt9 : Real.sqrt 9 = 3 := sqrt_eval (by norm_num) (by norm_num)

theorem sqrt25 : Real.sqrt 25 = 5 := sqrt_eval (by norm_num) (by norm_num)

theorem sqrt168 : Real.sqrt 1.68 = Real.sqrt 42 / 5 := by
  rw [show (1.68 : ℝ) = 42 / 25 by norm_num, Real.sqrt_div (by norm_num : (0:ℝ) ≤ 42), sqrt25]

theorem sqrt42_pos : 0 < Real.sqrt 42 := Real.sqrt_pos.mpr (by norm_num)

theorem testTransform0_len : testTransform0.translation.Length = 2 := by
  simp only [testTransform0, Float3.Length]
  rw [show ((2:ℝ) ^ 2 + (0:ℝ) ^ 2 + (0:ℝ) ^ 2) = 4 by norm_num, sqrt4]

theorem testTransform1_len : testTransform1.translation.Length = 3 := by
  simp only [testTransform1, Float3.Length]
  rw [show ((0:ℝ) ^ 2 + (0:ℝ) ^ 2 + (3:ℝ) ^ 2) = 9 by norm_num, sqrt9]

theorem testJob_layers (w0 w1 : ℝ) :
    (testJob w0 w1).layers = [⟨some testTransform0, w0⟩, ⟨some testTransform1, w1⟩] := rfl

theorem testJob_posLayers :
    posLayers (testJob 0.8 0.2).layers = (testJob 0.8 0.2).layers := by
  rw [testJob_layers, posLayers_cons, posLayers_cons, posLayers_nil]
  norm_num

theorem testJob_accWeight : accWeight (testJob 0.8 0.2).layers = 1 := by
  unfold accWeight
  rw [testJob_posLayers, testJob_layers]
  simp only [List.map_cons, List.map_nil, List.sum_cons, List.sum_nil]
  norm_num

theorem testJob_accLength : accLength (testJob 0.8 0.2).layers = 2.2 := by
  unfold accLength
  rw [testJob_posLayers, testJob_layers]
  simp only [List.map_cons, List.map_nil, List.sum_cons, List.sum_nil, Layer.tf,
    Option.getD_some]
  rw [testTransform0_len, testTransform1_len]
  norm_num

theorem testJob_accDirection : accDirection (testJob 0.8 0.2).layers = ⟨0.8, 0, 0.2⟩ := by
  unfold accDirection
  rw [testJob_posLayers, testJob_layers]
  simp only [List.map_cons, List.map_nil, Layer.tf, Option.getD_some]
  rw [testTransform0_len, testTransform1_len]
  rw [if_neg (by norm_num : (2:ℝ) ≠ 0), if_neg (by norm_num : (3:ℝ) ≠ 0)]
  simp only [f3sum_cons, f3sum_nil]
  ext <;> simp [testTransform0, testTransform1] <;> norm_num

theorem testJob_firstPos :
    firstPosRotation (testJob 0.8 0.2).layers = ⟨0.70710677, 0, 0, 0.70710677⟩ := by
  unfold firstPosRotation
  rw [testJob_layers, List.find?_cons_of_pos _ (by norm_num)]
  simp [Layer.tf, testTransform0]

theorem testJob_accRotation : accRotation (testJob 0.8 0.2).layers
    = ⟨0.8 * 0.70710677, 0.2 * 0.70710677, 0, 0.70710677⟩ := by
  unfold accRotation
  rw [testJob_firstPos, testJob_posLayers, testJob_layers]
  simp only [List.map_cons, List.map_nil, Layer.tf, Option.getD_some]
  rw [if_neg (by norm_num [Quaternion.Dot, testTransform0] :
        ¬Quaternion.Dot testTransform0.rotation ⟨0.70710677, 0, 0, 0.70710677⟩ < 0),
    if_pos (by norm_num [Quaternion.Dot, testTransform1] :
        Quaternion.Dot testTransform1.rotation ⟨0.70710677, 0, 0, 0.70710677⟩ < 0)]
  simp only [qsum_cons, qsum_nil]
  ext <;> simp [testTransform0, testTransform1] <;> norm_num

theorem testJob_accScale : accScale (testJob 0.8 0.2).layers = ⟨1, 1, 1⟩ := by
  unfold accScale
  rw [testJob_posLayers, testJob_layers]
  simp only [List.map_cons, List.map_nil, Layer.tf, Option.getD_some]
  simp only [f3sum_cons, f3sum_nil]
  ext <;> simp [testTransform0, testTransform1] <;> norm_num

theorem testRotation_normalized :
    Quaternion.NormalizeSafe ⟨0.8 * 0.70710677, 0.2 * 0.70710677, 0, 0.70710677⟩
      = ⟨4 / Real.sqrt 42, 1 / Real.sqrt 42, 0, 5 / Real.sqrt 42⟩ := by
  unfold Quaternion.NormalizeSafe
  have hdot : Quaternion.Dot ⟨0.8 * 0.70710677, 0.2 * 0.70710677, 0, 0.70710677⟩
      ⟨0.8 * 0.70710677, 0.2 * 0.70710677, 0, 0.70710677⟩
      = 1.68 * (0.70710677 * 0.70710677) := by
    norm_num [Quaternion.Dot]
  rw [hdot, if_neg (by norm_num)]
  have hs : Real.sqrt (1.68 * (0.70710677 * 0.70710677))
      = Real.sqrt 42 / 5 * 0.70710677 := by
    rw [Real.sqrt_mul (by norm_num : (0:ℝ) ≤ 1.68),
      Real.sqrt_mul_self (by norm_num : (0:ℝ) ≤ 0.70710677), sqrt168]
  rw [hs]
  have h42 : Real.sqrt 42 ≠ 0 := ne_of_gt sqrt42_pos
  ext <;> simp <;> field_simp <;> ring

theorem testJob_blended : BlendedTransform (testJob 0.8 0.2).layers
    = ⟨⟨1.76, 0, 0.44⟩, ⟨4 / Real.sqrt 42, 1 / Real.sqrt 42, 0, 5 / Real.sqrt 42⟩,
        ⟨1, 1, 1⟩⟩ := by
  unfold BlendedTransform
  rw [testJob_accWeight, testJob_accLength, testJob_accDirection, testJob_accRotation,
    testJob_accScale, if_neg (by norm_num : (1:ℝ) ≠ 0)]
  refine Transform.ext ?_ ?_ ?_
  · ext <;> simp <;> norm_num
  · exact testRotation_normalized
  · ext <;> simp <;> norm_num

/-- C1: multiplying every layer weight by a common positive factor never
changes the result of `Run()`; in particular the unit test's two-layer job
yields the identical output for the weight pairs `{0.8,0.2}`, `{8,2}` and
`{0.08,0.02}`: translation exactly `(1.76, 0, 0.44)`, rotation
`(4,1,0,5)/sqrt 42 ≈ (0.6172133, 0.1543033, 0, 0.7715167)`, scale `(1,1,1)`. -/
theorem run_weight_scale_invariance :
    (∀ (job : MotionBlendingJob) (k : ℝ), 0 < k → (job.scaleWeights k).Run = job.Run)
    ∧ (testJob 8 2).Run = (testJob 0.8 0.2).Run
    ∧ (testJob 0.08 0.02).Run = (testJob 0.8 0.2).Run
    ∧ (testJob 0.8 0.2).Run =
        (true, some ⟨⟨1.76, 0, 0.44⟩,
          ⟨4 / Real.sqrt 42, 1 / Real.sqrt 42, 0, 5 / Real.sqrt 42⟩, ⟨1, 1, 1⟩⟩) := by
  have hmain : ∀ (job : MotionBlendingJob) (k : ℝ), 0 < k →
      (job.scaleWeights k).Run = job.Run :=
    fun job k hk => run_scaleWeights hk job
  have h8 : testJob 8 2 = (testJob 0.8 0.2).scaleWeights 10 := by
    simp only [testJob, MotionBlendingJob.scaleWeights, List.map_cons, List.map_nil,
      Layer.scaleWeight]
    norm_num
  have h008 : testJob 0.08 0.02 = (testJob 0.8 0.2).scaleWeights 0.1 := by
    simp only [testJob, MotionBlendingJob.scaleWeights, List.map_cons, List.map_nil,
      Layer.scaleWeight]
    norm_num
  have hv : (testJob 0.8 0.2).Validate = true := by
    simp [testJob, MotionBlendingJob.Validate]
  refine ⟨hmain, ?_, ?_, ?_⟩
  · rw [h8]
    exact hmain _ 10 (by norm_num)
  · rw [h008]
    exact hmain _ 0.1 (by norm_num)
  · simp only [MotionBlendingJob.Run, hv, if_true]
    rw [testJob_blended]

/-! ## Single-contributor pass-through -/

theorem Length_eq_zero {v : Float3} (h : v.Length = 0) : v = 0 := by
  unfold Float3.Length at h
  have hsum : v.x ^ 2 + v.y ^ 2 + v.z ^ 2 = 0 := by
    have hnn : 0 ≤ v.x ^ 2 + v.y ^ 2 + v.z ^ 2 := by positivity
    have := Real.sqrt_eq_zero hnn |>.mp h
    exact this
  have hx : v.x = 0 := by nlinarith [sq_nonneg v.x, sq_nonneg v.y, sq_nonneg v.z]
  have hy : v.y = 0 := by nlinarith [sq_nonneg v.x, sq_nonneg v.y, sq_nonneg v.z]
  have hz : v.z = 0 := by nlinarith [sq_nonneg v.x, sq_nonneg v.y, sq_nonneg v.z]
  ext <;> simp [hx, hy, hz]

theorem NormalizeSafe_of_unit {q : Quaternion} (hq : Quaternion.Dot q q = 1) :
    q.NormalizeSafe = q := by
  unfold Quaternion.NormalizeSafe
  rw [hq, if_neg (by norm_num), Real.sqrt_one]
  ext <;> simp

/-- C6: a valid two-layer job in which exactly one layer has positive weight
(the other non-positive) reproduces the positively-weighted layer's
transform unchanged in the output — its rotation being unit length, as the
data model requires of well-formed transforms — because renormalization
divides every weighted sum by that same single weight. -/
theorem run_single_contributor (t0 t1 : Transform) (w0 w1 : ℝ) (out : Transform)
    (hw0 : 0 < w0) (hw1 : w1 ≤ 0)
    (hq : Quaternion.Dot t0.rotation t0.rotation = 1) :
    MotionBlendingJob.Run ⟨[⟨some t0, w0⟩, ⟨some t1, w1⟩], some out⟩ = (true, some t0) := by
  have hv : MotionBlendingJob.Validate ⟨[⟨some t0, w0⟩, ⟨some t1, w1⟩], some out⟩ = true := by
    simp [MotionBlendingJob.Validate]
  have hpos : posLayers [⟨some t0, w0⟩, ⟨some t1, w1⟩] = [⟨some t0, w0⟩] := by
    rw [posLayers_cons, posLayers_cons, posLayers_nil, if_pos hw0, if_neg (not_lt.mpr hw1)]
  have htf : (⟨some t0, w0⟩ : Layer).tf = t0 := rfl
  have hws : accWeight [⟨some t0, w0⟩, ⟨some t1, w1⟩] = w0 := by
    unfold accWeight
    rw [hpos]
    simp
  have hw0' : w0 ≠ 0 := ne_of_gt hw0
  have hblend : BlendedTransform [⟨some t0, w0⟩, ⟨some t1, w1⟩] = t0 := by
    unfold BlendedTransform
    rw [hws, if_neg hw0']
    have hlen : accLength [⟨some t0, w0⟩, ⟨some t1, w1⟩] = w0 * t0.translation.Length := by
      unfold accLength
      rw [hpos]
      simp [htf]
    have href : firstPosRotation [⟨some t0, w0⟩, ⟨some t1, w1⟩] = t0.rotation := by
      unfold firstPosRotation
      rw [List.find?_cons_of_pos _ (by simp [hw0])]
      rfl
    have hrot : accRotation [⟨some t0, w0⟩, ⟨some t1, w1⟩] = w0 • t0.rotation := by
      unfold accRotation
      rw [href, hpos]
      simp only [List.map_cons, List.map_nil, qsum_cons, qsum_nil, htf]
      rw [if_neg (by rw [hq]; norm_num)]
      ext <;> simp
    have hsc : accScale [⟨some t0, w0⟩, ⟨some t1, w1⟩] = w0 • t0.scale := by
      unfold accScale
      rw [hpos]
      simp only [List.map_cons, List.map_nil, f3sum_cons, f3sum_nil, htf]
      ext <;> simp
    refine Transform.ext ?_ ?_ ?_
    · rw [hlen]
      unfold accDirection
      rw [hpos]
      simp only [List.map_cons, List.map_nil, f3sum_cons, f3sum_nil, htf]
      by_cases hl : t0.translation.Length = 0
      · rw [if_pos hl]
        have h0 : t0.translation = 0 := Length_eq_zero hl
        rw [hl, h0]
        ext <;> simp
      · rw [if_neg hl]
        ext <;> field_simp <;> ring
    · rw [hrot, NormalizeSafe_smul hw0, NormalizeSafe_of_unit hq]
    · rw [hsc]
      ext <;> field_simp
  simp only [MotionBlendingJob.Run, hv, if_true, hblend]

/-- Witness for C6: one layer with weight `0.8` holding translation
`(2,0,0)`, the unit rotation `(3/5,0,0,4/5)` and unit scale, the other layer
with weight `0`: the output is exactly the first layer's transform. -/
theorem run_single_contributor_witness :
    MotionBlendingJob.Run
      ⟨[⟨some ⟨⟨2, 0, 0⟩, ⟨3/5, 0, 0, 4/5⟩, ⟨1, 1, 1⟩⟩, 0.8⟩,
        ⟨some Transform.identity, 0⟩], some Transform.identity⟩
      = (true, some ⟨⟨2, 0, 0⟩, ⟨3/5, 0, 0, 4/5⟩, ⟨1, 1, 1⟩⟩) :=
  run_single_contributor ⟨⟨2, 0, 0⟩, ⟨3/5, 0, 0, 4/5⟩, ⟨1, 1, 1⟩⟩ Transform.identity
    0.8 0 Transform.identity (by norm_num) le_rfl (by norm_num [Quaternion.Dot])

/-! ## Rotation sign robustness -/

theorem Quaternion.qneg_neg (a : Quaternion) : - -a = a := by
  ext <;> simp

theorem negRot_weight (l : Layer) : l.negRot.weight = l.weight := rfl

theorem negRot_isSome (l : Layer) : l.negRot.transform.isSome = l.transform.isSome := by
  cases h : l.transform <;> simp [Layer.negRot, h]

theorem negRot_tf_rotation {l : Layer} (h : l.transform.isSome = true) :
    l.negRot.tf.rotation = -l.tf.rotation := by
  obtain ⟨t, ht⟩ := Option.isSome_iff_exists.mp h
  simp [Layer.negRot, Layer.tf, ht]

theorem validate_negRot (pre post : List Layer) (l : Layer) (out : Option Transform)
    (hv : MotionBlendingJob.Validate ⟨pre ++ l :: post, out⟩ = true) :
    MotionBlendingJob.Validate ⟨pre ++ l.negRot :: post, out⟩ = true := by
  simp only [MotionBlendingJob.Validate, Bool.and_eq_true, List.all_append,
    List.all_cons] at hv ⊢
  obtain ⟨h1, h2, h3, h4⟩ := hv
  exact ⟨h1, h2, by rw [negRot_isSome]; exact h3, h4⟩

theorem blended_rotation (ls : List Layer) :
    (BlendedTransform ls).rotation =
      if accWeight ls = 0 then Quaternion.identity else (accRotation ls).NormalizeSafe := by
  unfold BlendedTransform
  by_cases h : accWeight ls = 0
  · rw [if_pos h, if_pos h]
    rfl
  · rw [if_neg h, if_neg h]

theorem accWeight_negRot (pre post : List Layer) (l : Layer) :
    accWeight (pre ++ l.negRot :: post) = accWeight (pre ++ l :: post) := by
  unfold accWeight
  rw [posLayers_append, posLayers_append, posLayers_cons, posLayers_cons]
  by_cases hl : 0 < l.weight
  · rw [if_pos (show 0 < l.negRot.weight from hl), if_pos hl]
    simp only [List.map_append, List.map_cons, List.sum_append, List.sum_cons, negRot_weight]
  · rw [if_neg (show ¬0 < l.negRot.weight from hl), if_neg hl]

theorem firstPos_append_some {pre : List Layer} {j0 : Layer}
    (hpre : pre.find? (fun j => decide (0 < j.weight)) = some j0) (rest : List Layer) :
    firstPosRotation (pre ++ rest) = j0.tf.rotation := by
  unfold firstPosRotation
  rw [List.find?_append, hpre]
  rfl

theorem firstPos_none_cons_pos {pre : List Layer} {l : Layer}
    (hpre : pre.find? (fun j => decide (0 < j.weight)) = none) (hl : 0 < l.weight)
    (post : List Layer) :
    firstPosRotation (pre ++ l :: post) = l.tf.rotation := by
  unfold firstPosRotation
  rw [List.find?_append, hpre, List.find?_cons_of_pos _ (by simp [hl])]
  rfl

theorem accRotation_negRot_nonpos (pre post : List Layer) (l : Layer) (hl : ¬0 < l.weight) :
    accRotation (pre ++ l.negRot :: post) = accRotation (pre ++ l :: post) := by
  have hfp : firstPosRotation (pre ++ l.negRot :: post)
      = firstPosRotation (pre ++ l :: post) := by
    unfold firstPosRotation
    rw [List.find?_append, List.find?_append,
      List.find?_cons_of_neg _ (by simp [negRot_weight, not_lt.mp hl]),
      List.find?_cons_of_neg _ (by simp [hl])]
  unfold accRotation
  rw [hfp, posLayers_append, posLayers_append, posLayers_cons, posLayers_cons,
    if_neg (show ¬0 < l.negRot.weight from hl), if_neg hl]

theorem accRotation_negRot_later (pre post : List Layer) (l j0 : Layer)
    (hl : 0 < l.weight) (hsome : l.transform.isSome = true)
    (hpre : pre.find? (fun j => decide (0 < j.weight)) = some j0)
    (hdl : Quaternion.Dot l.tf.rotation (firstPosRotation (pre ++ l :: post)) ≠ 0) :
    accRotation (pre ++ l.negRot :: post) = accRotation (pre ++ l :: post) := by
  have hfp1 : firstPosRotation (pre ++ l :: post) = j0.tf.rotation :=
    firstPos_append_some hpre _
  have hfp2 : firstPosRotation (pre ++ l.negRot :: post) = j0.tf.rotation :=
    firstPos_append_some hpre _
  have hne : Quaternion.Dot l.tf.rotation j0.tf.rotation ≠ 0 := by
    rw [← hfp1]
    exact hdl
  have hrot := negRot_tf_rotation hsome
  unfold accRotation
  rw [hfp1, hfp2, posLayers_append, posLayers_append, posLayers_cons, posLayers_cons,
    if_pos (show 0 < l.negRot.weight from hl), if_pos hl]
  simp only [List.map_append, List.map_cons]
  have hFl : (if Quaternion.Dot l.negRot.tf.rotation j0.tf.rotation < 0 then
        l.negRot.weight • (-l.negRot.tf.rotation)
      else l.negRot.weight • l.negRot.tf.rotation)
      = (if Quaternion.Dot l.tf.rotation j0.tf.rotation < 0 then
        l.weight • (-l.tf.rotation)
      else l.weight • l.tf.rotation) := by
    rw [hrot, negRot_weight, Quaternion.Dot_neg_left, Quaternion.qneg_neg]
    by_cases hd : Quaternion.Dot l.tf.rotation j0.tf.rotation < 0
    · rw [if_pos hd, if_neg (not_lt.mpr (le_of_lt (neg_pos.mpr hd)))]
    · have hgt : 0 < Quaternion.Dot l.tf.rotation j0.tf.rotation :=
        lt_of_le_of_ne (not_lt.mp hd) (Ne.symm hne)
      rw [if_pos (neg_lt_zero.mpr hgt), if_neg hd]
  rw [hFl]

theorem accRotation_negRot_first (pre post : List Layer) (l : Layer)
    (hl : 0 < l.weight) (hsome : l.transform.isSome = true)
    (hpre : pre.find? (fun j => decide (0 < j.weight)) = none)
    (hnd : ∀ j ∈ post, 0 < j.weight →
        Quaternion.Dot j.tf.rotation l.tf.rotation ≠ 0) :
    accRotation (pre ++ l.negRot :: post) = -accRotation (pre ++ l :: post) := by
  have hprenil : posLayers pre = [] := by
    unfold posLayers
    rw [List.filter_eq_nil_iff]
    exact List.find?_eq_none.mp hpre
  have hrot := negRot_tf_rotation hsome
  have hfp1 : firstPosRotation (pre ++ l :: post) = l.tf.rotation :=
    firstPos_none_cons_pos hpre hl post
  have hfp2 : firstPosRotation (pre ++ l.negRot :: post) = -l.tf.rotation := by
    unfold firstPosRotation
    rw [List.find?_append, hpre,
      List.find?_cons_of_pos _ (by simp [show 0 < l.negRot.weight from hl])]
    exact hrot
  unfold accRotation
  rw [hfp1, hfp2, posLayers_append, posLayers_append, hprenil, posLayers_cons, posLayers_cons,
    if_pos (show 0 < l.negRot.weight from hl), if_pos hl]
  simp only [List.nil_append, List.map_cons, qsum_cons]
  have hmap : (posLayers post).map (fun j =>
        if Quaternion.Dot j.tf.rotation (-l.tf.rotation) < 0 then j.weight • (-j.tf.rotation)
        else j.weight • j.tf.rotation)
      = (posLayers post).map (fun j =>
        -(if Quaternion.Dot j.tf.rotation l.tf.rotation < 0 then j.weight • (-j.tf.rotation)
          else j.weight • j.tf.rotation)) := by
    apply List.map_congr_left
    intro j hj
    obtain ⟨hjmem, hjpos⟩ := mem_posLayers.mp hj
    have hne := hnd j hjmem hjpos
    rw [Quaternion.Dot_neg_right]
    by_cases hd : Quaternion.Dot j.tf.rotation l.tf.rotation < 0
    · rw [if_pos hd, if_neg (not_lt.mpr (le_of_lt (neg_pos.mpr hd)))]
      ext <;> simp <;> ring
    · have hgt : 0 < Quaternion.Dot j.tf.rotation l.tf.rotation :=
        lt_of_le_of_ne (not_lt.mp hd) (Ne.symm hne)
      rw [if_pos (neg_lt_zero.mpr hgt), if_neg hd]
      ext <;> simp <;> ring
  rw [hmap, qsum_map_neg]
  have hheadL : (if Quaternion.Dot l.negRot.tf.rotation (-l.tf.rotation) < 0 then
        l.negRot.weight • (-l.negRot.tf.rotation)
      else l.negRot.weight • l.negRot.tf.rotation)
      = l.weight • (-l.tf.rotation) := by
    rw [hrot, negRot_weight, Quaternion.Dot_neg_left, Quaternion.Dot_neg_right, neg_neg,
      if_neg (not_lt.mpr (Quaternion.Dot_self_nonneg _))]
  have hheadR : (if Quaternion.Dot l.tf.rotation l.tf.rotation < 0 then
        l.weight • (-l.tf.rotation)
      else l.weight • l.tf.rotation)
      = l.weight • l.tf.rotation :=
    if_neg (not_lt.mpr (Quaternion.Dot_self_nonneg _))
  rw [hheadL, hheadR]
  ext <;> simp <;> ring

/-- C5 (amended): for a valid job, negating one layer's rotation quaternion
before blending changes the blended rotation at most by quaternion sign,
provided no positively-weighted layer's rotation is orthogonal to the
reference (the first positively-weighted layer's rotation): when their dot
products are all nonzero the shortest-path correction absorbs the negation
exactly. -/
theorem run_rotation_sign_robust (pre post : List Layer) (l : Layer) (out : Option Transform)
    (hv : MotionBlendingJob.Validate ⟨pre ++ l :: post, out⟩ = true)
    (hnd : ∀ j ∈ pre ++ l :: post, 0 < j.weight →
        Quaternion.Dot j.tf.rotation (firstPosRotation (pre ++ l :: post)) ≠ 0) :
    MotionBlendingJob.Run ⟨pre ++ l :: post, out⟩
      = (true, some (BlendedTransform (pre ++ l :: post)))
    ∧ MotionBlendingJob.Run ⟨pre ++ l.negRot :: post, out⟩
      = (true, some (BlendedTransform (pre ++ l.negRot :: post)))
    ∧ ((BlendedTransform (pre ++ l.negRot :: post)).rotation
        = (BlendedTransform (pre ++ l :: post)).rotation
      ∨ (BlendedTransform (pre ++ l.negRot :: post)).rotation
        = -(BlendedTransform (pre ++ l :: post)).rotation) := by
  have hv' := validate_negRot pre post l out hv
  have hsome : l.transform.isSome = true := by
    simp only [MotionBlendingJob.Validate, Bool.and_eq_true, List.all_append,
      List.all_cons] at hv
    exact hv.2.2.1
  refine ⟨by simp [MotionBlendingJob.Run, hv], by simp [MotionBlendingJob.Run, hv'], ?_⟩
  have haccW := accWeight_negRot pre post l
  by_cases hl : 0 < l.weight
  · cases hpre : pre.find? fun j => decide (0 < j.weight) with
    | some j0 =>
      have hdl : Quaternion.Dot l.tf.rotation (firstPosRotation (pre ++ l :: post)) ≠ 0 :=
        hnd l (by simp) hl
      have hacc := accRotation_negRot_later pre post l j0 hl hsome hpre hdl
      left
      rw [blended_rotation, blended_rotation, haccW, hacc]
    | none =>
      have hfp1 : firstPosRotation (pre ++ l :: post) = l.tf.rotation :=
        firstPos_none_cons_pos hpre hl post
      have hnd' : ∀ j ∈ post, 0 < j.weight →
          Quaternion.Dot j.tf.rotation l.tf.rotation ≠ 0 := by
        intro j hj hjw
        have := hnd j (by simp [hj]) hjw
        rwa [hfp1] at this
      have hacc := accRotation_negRot_first pre post l hl hsome hpre hnd'
      have hne : posLayers (pre ++ l :: post) ≠ [] := by
        rw [posLayers_append, posLayers_cons, if_pos hl]
        simp
      have hwsne : accWeight (pre ++ l :: post) ≠ 0 := ne_of_gt (accWeight_pos hne)
      rw [blended_rotation, blended_rotation, haccW, hacc, if_neg hwsne, if_neg hwsne]
      by_cases hd0 : Quaternion.Dot (accRotation (pre ++ l :: post))
          (accRotation (pre ++ l :: post)) = 0
      · left
        unfold Quaternion.NormalizeSafe
        rw [Quaternion.Dot_neg_left, Quaternion.Dot_neg_right, neg_neg, hd0]
        simp
      · right
        exact NormalizeSafe_neg hd0
  · have hacc := accRotation_negRot_nonpos pre post l hl
    left
    rw [blended_rotation, blended_rotation, haccW, hacc]

/-- Witness for C5's amended theorem: two identical unit-weight layers with
rotation `(1,0,0,0)`; negating the first layer's rotation flips the blended
rotation's sign at most. -/
theorem run_rotation_sign_robust_witness :
    MotionBlendingJob.Run
        ⟨[⟨some cexTransformA, 1⟩, ⟨some cexTransformA, 1⟩], some Transform.identity⟩
      = (true, some (BlendedTransform [⟨some cexTransformA, 1⟩, ⟨some cexTransformA, 1⟩]))
    ∧ MotionBlendingJob.Run
        ⟨[(⟨some cexTransformA, 1⟩ : Layer).negRot, ⟨some cexTransformA, 1⟩],
          some Transform.identity⟩
      = (true, some (BlendedTransform
          [(⟨some cexTransformA, 1⟩ : Layer).negRot, ⟨some cexTransformA, 1⟩]))
    ∧ ((BlendedTransform
          [(⟨some cexTransformA, 1⟩ : Layer).negRot, ⟨some cexTransformA, 1⟩]).rotation
        = (BlendedTransform [⟨some cexTransformA, 1⟩, ⟨some cexTransformA, 1⟩]).rotation
      ∨ (BlendedTransform
          [(⟨some cexTransformA, 1⟩ : Layer).negRot, ⟨some cexTransformA, 1⟩]).rotation
        = -(BlendedTransform [⟨some cexTransformA, 1⟩, ⟨some cexTransformA, 1⟩]).rotation) :=
  run_rotation_sign_robust [] [⟨some cexTransformA, 1⟩] ⟨some cexTransformA, 1⟩
    (some Transform.identity)
    (by simp [MotionBlendingJob.Validate])
    (by
      intro j hj hjw
      have hfp : firstPosRotation
          ([] ++ (⟨some cexTransformA, 1⟩ : Layer) :: [⟨some cexTransformA, 1⟩])
          = (⟨1, 0, 0, 0⟩ : Quaternion) := by
        unfold firstPosRotation
        rw [List.nil_append, List.find?_cons_of_pos _ (by norm_num)]
        simp [Layer.tf, cexTransformA]
      rw [hfp]
      simp only [List.nil_append, List.mem_cons, List.mem_singleton] at hj
      rcases hj with rfl | rfl | h
      · norm_num [Layer.tf, cexTransformA, Quaternion.Dot]
      · norm_num [Layer.tf, cexTransformA, Quaternion.Dot]
      · exact absurd h (List.not_mem_nil _))

theorem sqrt2_ne : Real.sqrt 2 ≠ 0 := ne_of_gt (Real.sqrt_pos.mpr (by norm_num))

theorem jobC5_rotation :
    (BlendedTransform jobC5.layers).rotation = ⟨1 / Real.sqrt 2, 1 / Real.sqrt 2, 0, 0⟩ := by
  have hpos : posLayers jobC5.layers = jobC5.layers := by
    rw [show jobC5.layers = [⟨some cexTransformA, 1⟩, ⟨some cexTransformD, 1⟩] from rfl,
      posLayers_cons, posLayers_cons, posLayers_nil]
    norm_num
  have hws : accWeight jobC5.layers = 2 := by
    unfold accWeight
    rw [hpos, show jobC5.layers = [⟨some cexTransformA, 1⟩, ⟨some cexTransformD, 1⟩] from rfl]
    norm_num
  have href : firstPosRotation jobC5.layers = ⟨1, 0, 0, 0⟩ := by
    unfold firstPosRotation
    rw [show jobC5.layers = [⟨some cexTransformA, 1⟩, ⟨some cexTransformD, 1⟩] from rfl,
      List.find?_cons_of_pos _ (by norm_num)]
    simp [Layer.tf, cexTransformA]
  have hacc : accRotation jobC5.layers = ⟨1, 1, 0, 0⟩ := by
    unfold accRotation
    rw [href, hpos,
      show jobC5.layers = [⟨some cexTransformA, 1⟩, ⟨some cexTransformD, 1⟩] from rfl]
    simp only [List.map_cons, List.map_nil, qsum_cons, qsum_nil, Layer.tf, Option.getD_some]
    rw [if_neg (by norm_num [cexTransformA, Quaternion.Dot]),
      if_neg (by norm_num [cexTransformA, cexTransformD, Quaternion.Dot])]
    ext <;> simp [cexTransformA, cexTransformD]
  rw [blended_rotation, hws, if_neg (by norm_num), hacc]
  unfold Quaternion.NormalizeSafe
  rw [show Quaternion.Dot ⟨1, 1, 0, 0⟩ ⟨1, 1, 0, 0⟩ = 2 by norm_num [Quaternion.Dot],
    if_neg (by norm_num)]
  ext <;> simp

theorem jobC5n_rotation :
    (BlendedTransform jobC5n.layers).rotation
      = ⟨1 / Real.sqrt 2, -(1 / Real.sqrt 2), 0, 0⟩ := by
  have hlay : jobC5n.layers
      = [⟨some cexTransformA, 1⟩, ⟨some ⟨⟨0, 0, 0⟩, ⟨0, -1, 0, 0⟩, ⟨1, 1, 1⟩⟩, 1⟩] := by
    show [_, (⟨some cexTransformD, 1⟩ : Layer).negRot] = _
    simp only [Layer.negRot, cexTransformD, Option.map_some]
    norm_num
    ext <;> norm_num
  have hpos : posLayers jobC5n.layers = jobC5n.layers := by
    rw [hlay, posLayers_cons, posLayers_cons, posLayers_nil]
    norm_num
  have hws : accWeight jobC5n.layers = 2 := by
    unfold accWeight
    rw [hpos, hlay]
    norm_num
  have href : firstPosRotation jobC5n.layers = ⟨1, 0, 0, 0⟩ := by
    unfold firstPosRotation
    rw [hlay, List.find?_cons_of_pos _ (by norm_num)]
    simp [Layer.tf, cexTransformA]
  have hacc : accRotation jobC5n.layers = ⟨1, -1, 0, 0⟩ := by
    unfold accRotation
    rw [href, hpos, hlay]
    simp only [List.map_cons, List.map_nil, qsum_cons, qsum_nil, Layer.tf, Option.getD_some]
    rw [if_neg (by norm_num [cexTransformA, Quaternion.Dot]),
      if_neg (by norm_num [cexTransformA, Quaternion.Dot])]
    ext <;> simp [cexTransformA]
  rw [blended_rotation, hws, if_neg (by norm_num), hacc]
  unfold Quaternion.NormalizeSafe
  rw [show Quaternion.Dot ⟨1, -1, 0, 0⟩ ⟨1, -1, 0, 0⟩ = 2 by norm_num [Quaternion.Dot],
    if_neg (by norm_num)]
  ext <;> simp

/-- C5 (counterexample): with two equally weighted layers whose rotations
`(1,0,0,0)` and `(0,1,0,0)` are orthogonal, negating the second layer's
rotation changes the blended rotation to a quaternion that is neither the
original output nor its negation, so the claimed sign-robustness fails as a
universal statement. -/
theorem rotation_sign_cex :
    MotionBlendingJob.Validate jobC5 = true
    ∧ jobC5n.layers = [⟨some cexTransformA, 1⟩, (⟨some cexTransformD, 1⟩ : Layer).negRot]
    ∧ (BlendedTransform jobC5n.layers).rotation ≠ (BlendedTransform jobC5.layers).rotation
    ∧ (BlendedTransform jobC5n.layers).rotation ≠ -(BlendedTransform jobC5.layers).rotation
    ∧ (MotionBlendingJob.Run jobC5n).2 ≠ (MotionBlendingJob.Run jobC5).2 := by
  have hv5 : MotionBlendingJob.Validate jobC5 = true := by
    simp [jobC5, MotionBlendingJob.Validate]
  have hv5n : MotionBlendingJob.Validate jobC5n = true := by
    simp [jobC5n, MotionBlendingJob.Validate, Layer.negRot, cexTransformD]
  have hinv : (1 : ℝ) / Real.sqrt 2 ≠ 0 := one_div_ne_zero sqrt2_ne
  have hrotne : (BlendedTransform jobC5n.layers).rotation
      ≠ (BlendedTransform jobC5.layers).rotation := by
    rw [jobC5_rotation, jobC5n_rotation]
    intro h
    have hy := congrArg Quaternion.y h
    simp only at hy
    have : (1 : ℝ) / Real.sqrt 2 = 0 := by linarith
    exact hinv this
  have hrotnegne : (BlendedTransform jobC5n.layers).rotation
      ≠ -(BlendedTransform jobC5.layers).rotation := by
    rw [jobC5_rotation, jobC5n_rotation]
    intro h
    have hx := congrArg Quaternion.x h
    simp only [Quaternion.qneg_x] at hx
    have : (1 : ℝ) / Real.sqrt 2 = 0 := by linarith
    exact hinv this
  refine ⟨hv5, rfl, hrotne, hrotnegne, ?_⟩
  have hr1 : (MotionBlendingJob.Run jobC5).2 = some (BlendedTransform jobC5.layers) := by
    simp [MotionBlendingJob.Run, hv5]
  have hr2 : (MotionBlendingJob.Run jobC5n).2 = some (BlendedTransform jobC5n.layers) := by
    simp [MotionBlendingJob.Run, hv5n]
  rw [hr1, hr2]
  intro h
  have := congrArg Transform.rotation ((Option.some.injEq _ _).mp h)
  exact hrotne this

/-! ## Permutation of the layer sequence -/

theorem blended_translation (ls : List Layer) :
    (BlendedTransform ls).translation =
      if accWeight ls = 0 then Transform.identity.translation
      else (accLength ls / (accWeight ls * accWeight ls)) • accDirection ls := by
  unfold BlendedTransform
  by_cases h : accWeight ls = 0
  · rw [if_pos h, if_pos h]
  · rw [if_neg h, if_neg h]

theorem blended_scale_field (ls : List Layer) :
    (BlendedTransform ls).scale =
      if accWeight ls = 0 then Transform.identity.scale
      else (1 / accWeight ls) • accScale ls := by
  unfold BlendedTransform
  by_cases h : accWeight ls = 0
  · rw [if_pos h, if_pos h]
  · rw [if_neg h, if_neg h]

theorem list_all_perm {α : Type} {l₁ l₂ : List α} (p : α → Bool) (h : l₁.Perm l₂) :
    l₁.all p = l₂.all p := by
  induction h with
  | nil => rfl
  | cons x _ ih => simp [List.all_cons, ih]
  | swap x y l =>
    simp only [List.all_cons]
    cases p x <;> cases p y <;> simp
  | trans _ _ ih₁ ih₂ => rw [ih₁, ih₂]

theorem validate_perm {job job' : MotionBlendingJob}
    (hperm : job.layers.Perm job'.layers) (hout : job.output = job'.output) :
    job.Validate = job'.Validate := by
  simp only [MotionBlendingJob.Validate, hout]
  rw [list_all_perm _ hperm]

theorem posLayers_perm {ls₁ ls₂ : List Layer} (h : ls₁.Perm ls₂) :
    (posLayers ls₁).Perm (posLayers ls₂) := by
  unfold posLayers
  exact h.filter _

theorem accWeight_perm {ls₁ ls₂ : List Layer} (h : ls₁.Perm ls₂) :
    accWeight ls₁ = accWeight ls₂ := by
  unfold accWeight
  exact ((posLayers_perm h).map _).sum_eq

theorem accLength_perm {ls₁ ls₂ : List Layer} (h : ls₁.Perm ls₂) :
    accLength ls₁ = accLength ls₂ := by
  unfold accLength
  exact ((posLayers_perm h).map _).sum_eq

theorem accDirection_perm {ls₁ ls₂ : List Layer} (h : ls₁.Perm ls₂) :
    accDirection ls₁ = accDirection ls₂ := by
  unfold accDirection
  exact f3sum_perm ((posLayers_perm h).map _)

theorem accScale_perm {ls₁ ls₂ : List Layer} (h : ls₁.Perm ls₂) :
    accScale ls₁ = accScale ls₂ := by
  unfold accScale
  exact f3sum_perm ((posLayers_perm h).map _)

theorem accRotation_of_nonneg (ls : List Layer)
    (hnn : ∀ a ∈ posLayers ls, ∀ b ∈ posLayers ls,
      0 ≤ Quaternion.Dot a.tf.rotation b.tf.rotation) :
    accRotation ls = qsum ((posLayers ls).map fun l => l.weight • l.tf.rotation) := by
  unfold accRotation
  congr 1
  apply List.map_congr_left
  intro j hj
  dsimp only
  cases hf : ls.find? fun l => decide (0 < l.weight) with
  | none =>
    have hnil : posLayers ls = [] := by
      unfold posLayers
      rw [List.filter_eq_nil_iff]
      exact List.find?_eq_none.mp hf
    rw [hnil] at hj
    exact absurd hj (List.not_mem_nil j)
  | some l0 =>
    have hl0mem : l0 ∈ ls := List.mem_of_find?_eq_some hf
    have hl0pos : 0 < l0.weight := by simpa using List.find?_some hf
    have hl0 : l0 ∈ posLayers ls := mem_posLayers.mpr ⟨hl0mem, hl0pos⟩
    have href : firstPosRotation ls = l0.tf.rotation := by
      unfold firstPosRotation
      rw [hf]
    rw [href, if_neg (not_lt.mpr (hnn j hj l0 hl0))]

/-- C9 (amended): permuting the layer sequence of a job never changes the
boolean result of `Run()` nor the blended translation and scale; it also
leaves the blended rotation — and hence the whole result of `Run()` —
unchanged whenever the rotations of the positively-weighted layers lie
pairwise in the same hemisphere (pairwise nonnegative dot products), the
regime in which the first-layer sign reference is immaterial. -/
theorem run_permutation_invariance (job job' : MotionBlendingJob)
    (hperm : job.layers.Perm job'.layers) (hout : job.output = job'.output) :
    (MotionBlendingJob.Run job).1 = (MotionBlendingJob.Run job').1
    ∧ (BlendedTransform job.layers).translation = (BlendedTransform job'.layers).translation
    ∧ (BlendedTransform job.layers).scale = (BlendedTransform job'.layers).scale
    ∧ ((∀ a ∈ posLayers job.layers, ∀ b ∈ posLayers job.layers,
          0 ≤ Quaternion.Dot a.tf.rotation b.tf.rotation) →
        MotionBlendingJob.Run job = MotionBlendingJob.Run job') := by
  have hvp := validate_perm hperm hout
  have hW := accWeight_perm hperm
  have hL := accLength_perm hperm
  have hD := accDirection_perm hperm
  have hS := accScale_perm hperm
  refine ⟨?_, ?_, ?_, ?_⟩
  · unfold MotionBlendingJob.Run
    rw [hvp]
    by_cases h : job'.Validate = true
    · simp [h]
    · simp [Bool.not_eq_true _ |>.mp h]
  · rw [blended_translation, blended_translation, hW, hL, hD]
  · rw [blended_scale_field, blended_scale_field, hW, hS]
  · intro hnn
    have hpl := posLayers_perm hperm
    have hnn' : ∀ a ∈ posLayers job'.layers, ∀ b ∈ posLayers job'.layers,
        0 ≤ Quaternion.Dot a.tf.rotation b.tf.rotation := by
      intro a ha b hb
      exact hnn a (hpl.mem_iff.mpr ha) b (hpl.mem_iff.mpr hb)
    have hR : accRotation job.layers = accRotation job'.layers := by
      rw [accRotation_of_nonneg _ hnn, accRotation_of_nonneg _ hnn']
      exact qsum_perm (hpl.map _)
    have hblend : BlendedTransform job.layers = BlendedTransform job'.layers := by
      refine Transform.ext ?_ ?_ ?_
      · rw [blended_translation, blended_translation, hW, hL, hD]
      · rw [blended_rotation, blended_rotation, hW, hR]
      · rw [blended_scale_field, blended_scale_field, hW, hS]
    unfold MotionBlendingJob.Run
    rw [hvp, hout, hblend]

/-- Witness for C9's amended theorem: swapping two unit-weight layers whose
rotations `(1,0,0,0)` and `(1,1,0,0)` have nonnegative pairwise dot
products. -/
theorem run_permutation_invariance_witness :
    (MotionBlendingJob.Run ⟨[⟨some cexTransformA, 1⟩, ⟨some cexTransformB, 1⟩],
        some Transform.identity⟩).1
      = (MotionBlendingJob.Run ⟨[⟨some cexTransformB, 1⟩, ⟨some cexTransformA, 1⟩],
        some Transform.identity⟩).1
    ∧ (BlendedTransform [⟨some cexTransformA, 1⟩, ⟨some cexTransformB, 1⟩]).translation
      = (BlendedTransform [⟨some cexTransformB, 1⟩, ⟨some cexTransformA, 1⟩]).translation
    ∧ (BlendedTransform [⟨some cexTransformA, 1⟩, ⟨some cexTransformB, 1⟩]).scale
      = (BlendedTransform [⟨some cexTransformB, 1⟩, ⟨some cexTransformA, 1⟩]).scale
    ∧ ((∀ a ∈ posLayers [⟨some cexTransformA, 1⟩, ⟨some cexTransformB, 1⟩],
          ∀ b ∈ posLayers [⟨some cexTransformA, 1⟩, ⟨some cexTransformB, 1⟩],
          0 ≤ Quaternion.Dot a.tf.rotation b.tf.rotation) →
        MotionBlendingJob.Run ⟨[⟨some cexTransformA, 1⟩, ⟨some cexTransformB, 1⟩],
          some Transform.identity⟩
        = MotionBlendingJob.Run ⟨[⟨some cexTransformB, 1⟩, ⟨some cexTransformA, 1⟩],
          some Transform.identity⟩) :=
  run_permutation_invariance
    ⟨[⟨some cexTransformA, 1⟩, ⟨some cexTransformB, 1⟩], some Transform.identity⟩
    ⟨[⟨some cexTransformB, 1⟩, ⟨some cexTransformA, 1⟩], some Transform.identity⟩
    (List.Perm.swap (⟨some cexTransformB, 1⟩ : Layer) (⟨some cexTransformA, 1⟩ : Layer) [])
    rfl

theorem sqrt10_ne : Real.sqrt 10 ≠ 0 := ne_of_gt (Real.sqrt_pos.mpr (by norm_num))

theorem jobPerm1_rotation :
    (BlendedTransform jobPerm1.layers).rotation
      = (1 / Real.sqrt 10) • (⟨3, -1, 0, 0⟩ : Quaternion) := by
  have hlay : jobPerm1.layers
      = [⟨some cexTransformA, 1⟩, ⟨some cexTransformB, 1⟩, ⟨some cexTransformC, 1⟩] := rfl
  have hpos : posLayers jobPerm1.layers = jobPerm1.layers := by
    rw [hlay, posLayers_cons, posLayers_cons, posLayers_cons, posLayers_nil]
    norm_num
  have hws : accWeight jobPerm1.layers = 3 := by
    unfold accWeight
    rw [hpos, hlay]
    norm_num
  have href : firstPosRotation jobPerm1.layers = ⟨1, 0, 0, 0⟩ := by
    unfold firstPosRotation
    rw [hlay, List.find?_cons_of_pos _ (by norm_num)]
    simp [Layer.tf, cexTransformA]
  have hacc : accRotation jobPerm1.layers = ⟨3, -1, 0, 0⟩ := by
    unfold accRotation
    rw [href, hpos, hlay]
    simp only [List.map_cons, List.map_nil, qsum_cons, qsum_nil, Layer.tf, Option.getD_some]
    rw [if_neg (by norm_num [cexTransformA, Quaternion.Dot]),
      if_neg (by norm_num [cexTransformB, Quaternion.Dot]),
      if_pos (by norm_num [cexTransformC, Quaternion.Dot] :
        Quaternion.Dot cexTransformC.rotation ⟨1, 0, 0, 0⟩ < 0)]
    ext <;> simp [cexTransformA, cexTransformB, cexTransformC] <;> norm_num
  rw [blended_rotation, hws, if_neg (by norm_num), hacc]
  unfold Quaternion.NormalizeSafe
  rw [show Quaternion.Dot ⟨3, -1, 0, 0⟩ ⟨3, -1, 0, 0⟩ = 10 by norm_num [Quaternion.Dot],
    if_neg (by norm_num)]

theorem jobPerm2_rotation :
    (BlendedTransform jobPerm2.layers).rotation
      = (1 / Real.sqrt 10) • (⟨1, 3, 0, 0⟩ : Quaternion) := by
  have hlay : jobPerm2.layers
      = [⟨some cexTransformB, 1⟩, ⟨some cexTransformA, 1⟩, ⟨some cexTransformC, 1⟩] := rfl
  have hpos : posLayers jobPerm2.layers = jobPerm2.layers := by
    rw [hlay, posLayers_cons, posLayers_cons, posLayers_cons, posLayers_nil]
    norm_num
  have hws : accWeight jobPerm2.layers = 3 := by
    unfold accWeight
    rw [hpos, hlay]
    norm_num
  have href : firstPosRotation jobPerm2.layers = ⟨1, 1, 0, 0⟩ := by
    unfold firstPosRotation
    rw [hlay, List.find?_cons_of_pos _ (by norm_num)]
    simp [Layer.tf, cexTransformB]
  have hacc : accRotation jobPerm2.layers = ⟨1, 3, 0, 0⟩ := by
    unfold accRotation
    rw [href, hpos, hlay]
    simp only [List.map_cons, List.map_nil, qsum_cons, qsum_nil, Layer.tf, Option.getD_some]
    rw [if_neg (by norm_num [cexTransformB, Quaternion.Dot]),
      if_neg (by norm_num [cexTransformA, Quaternion.Dot]),
      if_neg (by norm_num [cexTransformC, Quaternion.Dot])]
    ext <;> simp [cexTransformA, cexTransformB, cexTransformC] <;> norm_num
  rw [blended_rotation, hws, if_neg (by norm_num), hacc]
  unfold Quaternion.NormalizeSafe
  rw [show Quaternion.Dot ⟨1, 3, 0, 0⟩ ⟨1, 3, 0, 0⟩ = 10 by norm_num [Quaternion.Dot],
    if_neg (by norm_num)]

/-- C9 (counterexample): three equally weighted valid layers with rotations
`(1,0,0,0)`, `(1,1,0,0)`, `(-1,2,0,0)`; swapping the first two layers
changes the sign reference, and the blended rotations `(3,-1,0,0)/sqrt 10`
and `(1,3,0,0)/sqrt 10` are neither equal nor negations of each other, so
`Run()` is not permutation invariant as stated. -/
theorem run_permutation_cex :
    jobPerm1.layers.Perm jobPerm2.layers
    ∧ jobPerm1.output = jobPerm2.output
    ∧ MotionBlendingJob.Validate jobPerm1 = true
    ∧ (BlendedTransform jobPerm1.layers).rotation
        ≠ (BlendedTransform jobPerm2.layers).rotation
    ∧ (BlendedTransform jobPerm1.layers).rotation
        ≠ -(BlendedTransform jobPerm2.layers).rotation
    ∧ (MotionBlendingJob.Run jobPerm1).2 ≠ (MotionBlendingJob.Run jobPerm2).2 := by
  have hperm : jobPerm1.layers.Perm jobPerm2.layers :=
    List.Perm.swap (⟨some cexTransformB, 1⟩ : Layer) (⟨some cexTransformA, 1⟩ : Layer)
      [⟨some cexTransformC, 1⟩]
  have hv1 : MotionBlendingJob.Validate jobPerm1 = true := by
    simp [jobPerm1, MotionBlendingJob.Validate]
  have hv2 : MotionBlendingJob.Validate jobPerm2 = true := by
    simp [jobPerm2, MotionBlendingJob.Validate]
  have hne1 : (BlendedTransform jobPerm1.layers).rotation
      ≠ (BlendedTransform jobPerm2.layers).rotation := by
    rw [jobPerm1_rotation, jobPerm2_rotation]
    intro h
    have hx := congrArg Quaternion.x h
    simp only [Quaternion.qsmul_x] at hx
    field_simp [sqrt10_ne] at hx
  have hne2 : (BlendedTransform jobPerm1.layers).rotation
      ≠ -(BlendedTransform jobPerm2.layers).rotation := by
    rw [jobPerm1_rotation, jobPerm2_rotation]
    intro h
    have hx := congrArg Quaternion.x h
    simp only [Quaternion.qsmul_x, Quaternion.qneg_x] at hx
    field_simp [sqrt10_ne] at hx
    nlinarith [Real.sqrt_pos.mpr (show (0:ℝ) < 10 by norm_num), hx]
  refine ⟨hperm, rfl, hv1, hne1, hne2, ?_⟩
  have hr1 : (MotionBlendingJob.Run jobPerm1).2 = some (BlendedTransform jobPerm1.layers) := by
    simp [MotionBlendingJob.Run, hv1]
  have hr2 : (MotionBlendingJob.Run jobPerm2).2 = some (BlendedTransform jobPerm2.layers) := by
    simp [MotionBlendingJob.Run, hv2]
  rw [hr1, hr2]
  intro h
  exact hne1 (congrArg Transform.rotation ((Option.some.injEq _ _).mp h))

/-- C10: for the in-memory stream, `Read` and `Write` return the number of
bytes actually transferred — which may be less than the requested size, and
is zero past the data end — and each call advances the position indicator by
exactly the number of bytes it transferred. -/
theorem stream_read_write_contract :
    (∀ (s : SpanStream) (size : ℕ),
        (s.Read size).1 ≤ size ∧ (s.Read size).2.tell_ = s.tell_ + (s.Read size).1)
    ∧ (∀ (s : SpanStream) (data : List ℕ),
        (s.Write data).1 ≤ data.length ∧ (s.Write data).2.tell_ = s.tell_ + (s.Write data).1)
    ∧ (SpanStream.Read ⟨[], 0, 0⟩ 1).1 = 0 :=
  ⟨fun s size => ⟨min_le_left _ _, rfl⟩, fun s data => ⟨min_le_left _ _, rfl⟩, rfl⟩

end Ozz
